import Mathlib

/-!
# Verification of the keep-alive pinger (`src/main.py`)

Shallow embedding of the module-level constants and the four functions
`_with_cache_bust`, `_attempt`, `ping_backend` and `ping_all`.

Modelling conventions:
* durations and latencies are rationals (`ℚ`); time advances only during
  network calls, so a latency measured "from `start`" is the sum of the
  durations of the network calls issued since `start`;
* the network is an oracle: each HTTP request (HEAD or GET) either yields a
  response with a status code and a duration, or raises a transport
  exception carrying a message and a duration (`requests.RequestException`);
* URLs handled by `_with_cache_bust` are modelled at the granularity that
  `urlparse`/`urlunparse` exposes: a record of components whose query part
  is the list of `key=value` pairs in order; `parse_qsl` (with its default
  `keep_blank_values=False`) drops blank-valued pairs, and `dict(...)`
  keeps first-occurrence order with last value winning.
-/

namespace KeepAlive

/-- `TIMEOUT_SECONDS = 8` (src/main.py line 19). -/
def TIMEOUT_SECONDS : ℕ := 8

/-- `RETRIES = 3` (src/main.py line 20). -/
def RETRIES : ℕ := 3

/-- `BACKOFF_BASE = 0.6` (src/main.py line 21). -/
def BACKOFF_BASE : ℚ := 0.6

/-- `ACCEPTABLE_CODES = {200, 204}` (src/main.py line 22). -/
def ACCEPTABLE_CODES : List ℤ := [200, 204]

/-- `ACCEPTABLE_REDIRECTS = {301, 302, 307, 308}` (src/main.py line 23). -/
def ACCEPTABLE_REDIRECTS : List ℤ := [301, 302, 307, 308]

/-- `MAX_WORKERS = 8` (src/main.py line 24). -/
def MAX_WORKERS : ℕ := 8

/-- Outcome of one HTTP request issued through the session: either a response
with its status code and the elapsed duration of the call, or a transport
exception (`requests.RequestException`) with its message and the elapsed
duration up to the raise. -/
inductive HttpStep where
  | resp (status : ℤ) (dur : ℚ)
  | exn (msg : String) (dur : ℚ)
deriving DecidableEq, Repr

/-- The 4-tuple `(ok, status, latency, error)` returned by `_attempt`
(src/main.py line 52). -/
structure AttemptRes where
  ok : Bool
  status : ℤ
  latency : ℚ
  error : String
deriving DecidableEq, Repr

/-- Instrumented result of one `_attempt` call: the returned tuple together
with whether the fallback GET request was issued. -/
structure AttemptExec where
  res : AttemptRes
  getIssued : Bool
deriving DecidableEq, Repr

/-- `_attempt` (src/main.py lines 52-75): one probing attempt, HEAD with
fallback GET.  `head` is the network's answer to the HEAD request, `get` the
answer it would give to the fallback GET (consulted only when issued).
Latency is measured from `start`, the instant before the HEAD request, so on
the GET path it accumulates both durations; an exception at either step is
caught by the single `except` and reported with status `-1`. -/
def _attempt (head get : HttpStep) : AttemptExec :=
  match head with
  | .exn m d => ⟨⟨false, -1, d, m⟩, false⟩
  | .resp sc d =>
    if sc ∈ ACCEPTABLE_CODES ∨ sc ∈ ACCEPTABLE_REDIRECTS then
      ⟨⟨true, sc, d, ""⟩, false⟩
    else
      match get with
      | .exn m d2 => ⟨⟨false, -1, d + d2, m⟩, true⟩
      | .resp sc2 d2 =>
        if sc2 ∈ ACCEPTABLE_CODES ∨ sc2 ∈ ACCEPTABLE_REDIRECTS then
          ⟨⟨true, sc2, d + d2, ""⟩, true⟩
        else
          ⟨⟨false, sc2, d + d2, "Unexpected status " ++ toString sc2⟩, true⟩

/-- A status code is a real HTTP status (as produced by a well-formed HTTP
response), never the `-1` sentinel. -/
def validStatus (sc : ℤ) : Prop := 100 ≤ sc ∧ sc ≤ 599

/-- Whether the step that terminated the attempt was a transport exception,
i.e. no HTTP response was obtained at the point the attempt's outcome was
recorded. -/
def endedInException (head get : HttpStep) : Bool :=
  match head with
  | .exn _ _ => true
  | .resp sc _ =>
    if sc ∈ ACCEPTABLE_CODES ∨ sc ∈ ACCEPTABLE_REDIRECTS then false
    else
      match get with
      | .exn _ _ => true
      | .resp _ _ => false

/-- The elapsed duration of a network step, whether it produced a response or
raised. -/
def HttpStep.dur : HttpStep → ℚ
  | .resp _ d => d
  | .exn _ d => d

/-- A network step is well formed when a response carries a real HTTP status
code and an exception carries a non-empty message (`str(e)`). -/
def stepWellFormed : HttpStep → Prop
  | .resp sc _ => validStatus sc
  | .exn m _ => m ≠ ""

/-! ## `_with_cache_bust` (src/main.py lines 43-49) -/

/-- The result of `urlparse`: the six URL components, with the query part
already at the granularity of `key=value` pairs in order. -/
structure URL where
  scheme : String
  netloc : String
  path : String
  params : String
  query : List (String × String)
  fragment : String
deriving DecidableEq, Repr

/-- `parse_qsl` with its default `keep_blank_values=False`: pairs whose value
is the empty string are dropped. -/
def parse_qsl (q : List (String × String)) : List (String × String) :=
  q.filter fun p => p.2 ≠ ""

/-- `d[k] = v` on a Python dict represented as its insertion-ordered entry
list: overwrite in place when the key is present, append otherwise. -/
def dictSet (l : List (String × String)) (k v : String) : List (String × String) :=
  if l.any fun p => p.1 = k then
    l.map fun p => if p.1 = k then (k, v) else p
  else
    l ++ [(k, v)]

/-- `dict(pairs)`: fold the pairs into an insertion-ordered dict, first
occurrence fixing the position, last occurrence fixing the value. -/
def dictOf (l : List (String × String)) : List (String × String) :=
  l.foldl (fun acc p => dictSet acc p.1 p.2) []

/-- `_with_cache_bust` (src/main.py lines 43-49): `q = dict(parse_qsl(query))`,
`q["_kick"] = str(int(time.time()))`, re-encode, and rebuild the URL with
only the query component replaced.  `now` is `int(time.time())`. -/
def _with_cache_bust (u : URL) (now : ℕ) : URL :=
  let q := dictOf (parse_qsl u.query)
  let q2 := dictSet q "_kick" (toString now)
  { u with query := q2 }

/-! ## `ping_backend` (src/main.py lines 78-94) -/

/-- The dict returned by `ping_backend`: `{"url", "ok", "status", "latency",
"attempts", "error"}`. -/
structure TargetOutcome where
  url : String
  ok : Bool
  status : ℤ
  latency : ℚ
  attempts : ℕ
  error : String
deriving DecidableEq, Repr

/-- Instrumented run of `ping_backend`'s retry loop: the returned outcome
(`none` when the loop body never ran, i.e. `RETRIES = 0`, and the bare
`return` after the loop would read unbound locals), the attempt numbers that
were executed, and the backoff sleeps performed, each tagged with the attempt
number it followed. -/
structure PingTrace where
  outcome : Option TargetOutcome
  tried : List ℕ
  sleeps : List (ℕ × ℚ)
deriving DecidableEq, Repr

/-- The network behaviour one `ping_backend` call is exposed to: for each
attempt number, the HEAD step and the (potential) fallback GET step. -/
def Net : Type := ℕ → HttpStep × HttpStep

/-- The tuple `_attempt(url)` yields on attempt `k` under network `net`. -/
def attemptResult (net : Net) (k : ℕ) : AttemptRes :=
  (_attempt (net k).1 (net k).2).res

/-- The body of `for attempt in range(1, RETRIES + 1)` (src/main.py lines
81-94), one recursive step per iteration: `i` is the current attempt number,
`fuel` the number of iterations still to run (including this one).  On
success the loop returns at once with `attempts = i`; on failure with no
iteration left the post-loop `return` fires with `attempts = retries` and the
last attempt's status/latency/error; otherwise the loop sleeps
`BACKOFF_BASE * 2^(i-1) + jitter i` and continues. -/
def pingAux (retries : ℕ) (url : String) (att : ℕ → AttemptRes) (jitter : ℕ → ℚ) :
    ℕ → ℕ → PingTrace
  | _, 0 => ⟨none, [], []⟩
  | i, fuel + 1 =>
    let a := att i
    if a.ok then
      ⟨some ⟨url, true, a.status, a.latency, i, ""⟩, [i], []⟩
    else
      match fuel with
      | 0 => ⟨some ⟨url, false, a.status, a.latency, retries, a.error⟩, [i], []⟩
      | _ + 1 =>
        let s := BACKOFF_BASE * 2 ^ (i - 1) + jitter i
        let rest := pingAux retries url att jitter (i + 1) fuel
        ⟨rest.outcome, i :: rest.tried, (i, s) :: rest.sleeps⟩

/-- `ping_backend` (src/main.py lines 78-94), generalised over the retry
budget: run attempts `1, ..., retries`, each one a call to `_attempt`,
with exponential backoff between failed attempts.  `jitter k` is the value
`random.uniform(0, 0.25)` drawn after attempt `k`. -/
def ping_backend (retries : ℕ) (url : String) (net : Net) (jitter : ℕ → ℚ) :
    PingTrace :=
  pingAux retries url (attemptResult net) jitter 1 retries

/-! ## `ping_all` (src/main.py lines 97-129) -/

/-- Single pass of Python's `min(xs, key=f)` with current best `b`: a later
element replaces the best only when strictly smaller, so the first minimal
element wins. -/
def pyMinGo (f : TargetOutcome → ℚ) (b : TargetOutcome) :
    List TargetOutcome → TargetOutcome
  | [] => b
  | r :: rest => pyMinGo f (if f r < f b then r else b) rest

/-- `min(results, key=lambda r: r["latency"]) if results else None`. -/
def pyMinBy (f : TargetOutcome → ℚ) : List TargetOutcome → Option TargetOutcome
  | [] => none
  | x :: xs => some (pyMinGo f x xs)

/-- Single pass of Python's `max(xs, key=f)` with current best `b`: a later
element replaces the best only when strictly greater, so the first maximal
element wins. -/
def pyMaxGo (f : TargetOutcome → ℚ) (b : TargetOutcome) :
    List TargetOutcome → TargetOutcome
  | [] => b
  | r :: rest => pyMaxGo f (if f r > f b then r else b) rest

/-- `max(results, key=lambda r: r["latency"]) if results else None`. -/
def pyMaxBy (f : TargetOutcome → ℚ) : List TargetOutcome → Option TargetOutcome
  | [] => none
  | x :: xs => some (pyMaxGo f x xs)

/-- The log events `ping_all` emits, as structured data (the spec treats the
textual formatting as presentation): the `"No URLs configured."` error, the
totals line, the fastest/slowest lines, and one line per failed target. -/
inductive Event where
  | errorNoUrls
  | summaryLine (total okN failN : ℕ)
  | fastestLine (o : TargetOutcome)
  | slowestLine (o : TargetOutcome)
  | failureLine (o : TargetOutcome)
deriving DecidableEq, Repr

/-- The summary block of `ping_all` (src/main.py lines 114-129): counts,
then — when `results` is non-empty — the fastest and slowest outcome by
latency and, when failures exist, one line per failed outcome. -/
def summarize (results : List TargetOutcome) : List Event :=
  let okN := results.countP fun r => r.ok
  let failN := results.length - okN
  Event.summaryLine results.length okN failN ::
    match pyMinBy (fun r => r.latency) results, pyMaxBy (fun r => r.latency) results with
    | some fa, some sl =>
      [Event.fastestLine fa, Event.slowestLine sl] ++
        (if failN ≠ 0 then (results.filter fun r => !r.ok).map Event.failureLine else [])
    | _, _ => []

/-- Placeholder outcome for the (provably unreachable) `none` branch when
`ping_all` extracts each worker's result. -/
def dfltOutcome : TargetOutcome := ⟨"", false, 0, 0, 0, ""⟩

/-- `ping_all` (src/main.py lines 97-129): on an empty target list log the
error and return before any probing; otherwise run `ping_backend` (with the
configured `RETRIES`) once per list entry — entry `k` sees its own network
behaviour `net k` and jitter stream `jitter k` — collect one outcome per
entry, and emit the summary block.  Returns the collected outcomes and the
emitted events. -/
def ping_all (urls : List String) (net : ℕ → Net) (jitter : ℕ → ℕ → ℚ) :
    List TargetOutcome × List Event :=
  if urls.isEmpty then
    ([], [Event.errorNoUrls])
  else
    let results := urls.enum.map fun ku =>
      ((ping_backend RETRIES ku.2 (net ku.1) (jitter ku.1)).outcome).getD dfltOutcome
    (results, summarize results)

/-! ## Theorems -/

/-- C2: Single-attempt classification in `_attempt`: a HEAD status in
`ACCEPTABLE_CODES` or `ACCEPTABLE_REDIRECTS` yields success with that status
and no fallback GET; any other HEAD status triggers the fallback GET, whose
status is classified by the same sets; if the GET status is also unacceptable
the attempt fails with that status code and error `"Unexpected status <code>"`. -/
theorem C2_attempt_classification (sc : ℤ) (d : ℚ) (g : HttpStep) :
    (sc ∈ ACCEPTABLE_CODES ∨ sc ∈ ACCEPTABLE_REDIRECTS →
      _attempt (.resp sc d) g = ⟨⟨true, sc, d, ""⟩, false⟩) ∧
    (¬(sc ∈ ACCEPTABLE_CODES ∨ sc ∈ ACCEPTABLE_REDIRECTS) →
      (_attempt (.resp sc d) g).getIssued = true ∧
      ∀ sc2 d2, g = .resp sc2 d2 →
        (sc2 ∈ ACCEPTABLE_CODES ∨ sc2 ∈ ACCEPTABLE_REDIRECTS →
          _attempt (.resp sc d) g = ⟨⟨true, sc2, d + d2, ""⟩, true⟩) ∧
        (¬(sc2 ∈ ACCEPTABLE_CODES ∨ sc2 ∈ ACCEPTABLE_REDIRECTS) →
          _attempt (.resp sc d) g =
            ⟨⟨false, sc2, d + d2, "Unexpected status " ++ toString sc2⟩, true⟩)) := by
  constructor
  · intro h
    simp [_attempt, h]
  · intro h
    constructor
    · cases g with
      | exn m d2 => simp [_attempt, h]
      | resp sc2 d2 =>
        simp only [_attempt, h, if_false]
        split <;> rfl
    · rintro sc2 d2 rfl
      constructor
      · intro h2
        simp [_attempt, h, h2]
      · intro h2
        simp [_attempt, h, h2]

/-- C2 witness: HEAD 404 followed by GET 500 at concrete durations. -/
theorem C2_attempt_classification_witness :
    _attempt (.resp 404 1) (.resp 500 2) =
      ⟨⟨false, 500, 1 + 2, "Unexpected status " ++ toString (500 : ℤ)⟩, true⟩ :=
  (((C2_attempt_classification 404 1 (.resp 500 2)).2 (by decide)).2 500 2 rfl).2 (by decide)

/-- C3: a transport exception at the HEAD step, or at the GET step after an
unacceptable HEAD status, makes `_attempt` fail with the `-1` sentinel, the
exception's message, and the elapsed time up to the failure point; and for
well-formed network steps, `status = -1` holds iff the error message is
non-empty and the attempt terminated without obtaining an HTTP response. -/
theorem C3_attempt_transport_failure (head get : HttpStep)
    (hh : stepWellFormed head) (hg : stepWellFormed get) :
    (∀ m d, head = .exn m d → _attempt head get = ⟨⟨false, -1, d, m⟩, false⟩) ∧
    (∀ sc d m d2, head = .resp sc d →
      ¬(sc ∈ ACCEPTABLE_CODES ∨ sc ∈ ACCEPTABLE_REDIRECTS) → get = .exn m d2 →
      _attempt head get = ⟨⟨false, -1, d + d2, m⟩, true⟩) ∧
    ((_attempt head get).res.status = -1 ↔
      (_attempt head get).res.error ≠ "" ∧ endedInException head get = true) := by
  refine ⟨?_, ?_, ?_⟩
  · rintro m d rfl
    simp [_attempt]
  · rintro sc d m d2 rfl h rfl
    simp [_attempt, h]
  · cases head with
    | exn m d =>
      have hm : m ≠ "" := hh
      simp [_attempt, endedInException, hm]
    | resp sc d =>
      by_cases h : sc ∈ ACCEPTABLE_CODES ∨ sc ∈ ACCEPTABLE_REDIRECTS
      · have hsc : sc ≠ -1 := by
          rcases hh with ⟨h1, h2⟩
          omega
        simp [_attempt, endedInException, h, hsc]
      · cases get with
        | exn m d2 =>
          have hm : m ≠ "" := hg
          simp [_attempt, endedInException, h, hm]
        | resp sc2 d2 =>
          have hsc2 : sc2 ≠ -1 := by
            rcases hg with ⟨h1, h2⟩
            omega
          by_cases h2 : sc2 ∈ ACCEPTABLE_CODES ∨ sc2 ∈ ACCEPTABLE_REDIRECTS
          · simp [_attempt, endedInException, h, h2, hsc2]
          · simp [_attempt, endedInException, h, h2, hsc2]

/-- C3 witness: HEAD 503 then a GET timeout at concrete durations. -/
theorem C3_attempt_transport_failure_witness :
    _attempt (.resp 503 1) (.exn "timeout" 8) = ⟨⟨false, -1, 1 + 8, "timeout"⟩, true⟩ :=
  ((C3_attempt_transport_failure (.resp 503 1) (.exn "timeout" 8)
      (show validStatus 503 from by constructor <;> decide)
      (show ("timeout" : String) ≠ "" from by decide)).2.1)
    503 1 "timeout" 8 rfl (by decide) rfl

/-- C8: when the HEAD status is unacceptable, the latency of the attempt's
result is measured from the original probe start: it is the sum of the HEAD
duration and the fallback step's duration — strictly more than the GET
duration alone whenever the HEAD took positive time. -/
theorem C8_attempt_cumulative_latency (sc : ℤ) (d : ℚ) (g : HttpStep)
    (h : ¬(sc ∈ ACCEPTABLE_CODES ∨ sc ∈ ACCEPTABLE_REDIRECTS)) :
    (_attempt (.resp sc d) g).res.latency = d + g.dur ∧
    (0 < d → g.dur < (_attempt (.resp sc d) g).res.latency) := by
  have hlat : (_attempt (.resp sc d) g).res.latency = d + g.dur := by
    cases g with
    | exn m d2 => simp [_attempt, HttpStep.dur, h]
    | resp sc2 d2 =>
      by_cases h2 : sc2 ∈ ACCEPTABLE_CODES ∨ sc2 ∈ ACCEPTABLE_REDIRECTS
      · simp [_attempt, HttpStep.dur, h, h2]
      · simp [_attempt, HttpStep.dur, h, h2]
  refine ⟨hlat, fun hd => ?_⟩
  rw [hlat]
  linarith

/-- C8 witness: HEAD 404 in 1s then GET 200 in 2s gives latency 3s. -/
theorem C8_attempt_cumulative_latency_witness :
    (_attempt (.resp 404 1) (.resp 200 2)).res.latency = 1 + (HttpStep.resp 200 2).dur ∧
    (0 < (1 : ℚ) →
      (HttpStep.resp 200 2).dur < (_attempt (.resp 404 1) (.resp 200 2)).res.latency) :=
  C8_attempt_cumulative_latency 404 1 (.resp 200 2) (by decide)

/-- As long as at least one iteration is left, the retry loop yields exactly
one outcome: a success recorded at the attempt that produced it, or the
post-loop failure recorded with `attempts = retries`. -/
lemma pingAux_outcome_total (retries : ℕ) (url : String) (att : ℕ → AttemptRes)
    (jitter : ℕ → ℚ) :
    ∀ fuel i, 1 ≤ fuel →
      ∃ o, (pingAux retries url att jitter i fuel).outcome = some o ∧
        ((i ≤ o.attempts ∧ o.attempts + 1 ≤ i + fuel ∧ o.ok = true) ∨
          (o.attempts = retries ∧ o.ok = false)) := by
  intro fuel
  induction fuel with
  | zero => intro i h; exact absurd h (by omega)
  | succ f ih =>
    intro i _
    by_cases hok : (att i).ok = true
    · exact ⟨⟨url, true, (att i).status, (att i).latency, i, ""⟩,
        by simp [pingAux, hok], Or.inl ⟨le_refl i, show i + 1 ≤ i + (f + 1) by omega, rfl⟩⟩
    · cases f with
      | zero =>
        exact ⟨⟨url, false, (att i).status, (att i).latency, retries, (att i).error⟩,
          by simp [pingAux, hok], Or.inr ⟨rfl, rfl⟩⟩
      | succ f' =>
        obtain ⟨o, ho, hP⟩ := ih (i + 1) (by omega)
        refine ⟨o, by simp [pingAux, hok]; exact ho, ?_⟩
        rcases hP with ⟨h1, h2, h3⟩ | h
        · exact Or.inl ⟨by omega, by omega, h3⟩
        · exact Or.inr h

/-- If every attempt the loop can still run fails, the loop falls through and
returns the last attempt's status, latency and error with
`attempts = retries`. -/
lemma pingAux_all_fail (retries : ℕ) (url : String) (att : ℕ → AttemptRes)
    (jitter : ℕ → ℚ) :
    ∀ fuel i, 1 ≤ fuel → (∀ j, i ≤ j → j + 1 ≤ i + fuel → (att j).ok = false) →
      (pingAux retries url att jitter i fuel).outcome =
        some ⟨url, false, (att (i + fuel - 1)).status, (att (i + fuel - 1)).latency,
          retries, (att (i + fuel - 1)).error⟩ := by
  intro fuel
  induction fuel with
  | zero => intro i h; exact absurd h (by omega)
  | succ f ih =>
    intro i _ hfail
    have hi : (att i).ok = false := hfail i (le_refl i) (by omega)
    cases f with
    | zero =>
      have hidx : i + 1 - 1 = i := by omega
      rw [hidx]
      simp [pingAux, hi]
    | succ f' =>
      have hidx : i + 1 + (f' + 1) - 1 = i + (f' + 1 + 1) - 1 := by omega
      have := ih (i + 1) (by omega) (fun j hj hj2 => hfail j (by omega) (by omega))
      rw [hidx] at this
      simp only [pingAux, hi]
      simpa using this

/-- If attempt `k` is the first success within the remaining budget, the loop
returns at `k` with the success outcome, every executed attempt number is at
most `k`, and every backoff sleep precedes attempt `k`. -/
lemma pingAux_success (retries : ℕ) (url : String) (att : ℕ → AttemptRes)
    (jitter : ℕ → ℚ) :
    ∀ fuel i k, i ≤ k → k + 1 ≤ i + fuel → (att k).ok = true →
      (∀ j, i ≤ j → j < k → (att j).ok = false) →
      (pingAux retries url att jitter i fuel).outcome =
          some ⟨url, true, (att k).status, (att k).latency, k, ""⟩ ∧
      (∀ t ∈ (pingAux retries url att jitter i fuel).tried, i ≤ t ∧ t ≤ k) ∧
      (∀ p ∈ (pingAux retries url att jitter i fuel).sleeps, i ≤ p.1 ∧ p.1 < k) := by
  intro fuel
  induction fuel with
  | zero => intro i k h1 h2 _ _; exact absurd h2 (by omega)
  | succ f ih =>
    intro i k hik hkf hk hbefore
    by_cases hieq : i = k
    · subst hieq
      refine ⟨by simp [pingAux, hk], ?_, ?_⟩
      · intro t ht
        simp [pingAux, hk] at ht
        omega
      · intro p hp
        simp [pingAux, hk] at hp
    · have hilt : i < k := by omega
      have hi : (att i).ok = false := hbefore i (le_refl i) hilt
      cases f with
      | zero => exact absurd hkf (by omega)
      | succ f' =>
        obtain ⟨ho, ht, hs⟩ := ih (i + 1) k (by omega) (by omega) hk
          (fun j hj hj2 => hbefore j (by omega) hj2)
        refine ⟨by simp [pingAux, hi]; simpa using ho, ?_, ?_⟩
        · intro t hmem
          simp [pingAux, hi] at hmem
          rcases hmem with rfl | hmem
          · omega
          · have := ht t hmem
            omega
        · intro p hmem
          simp [pingAux, hi] at hmem
          rcases hmem with rfl | hmem
          · exact ⟨le_refl i, hilt⟩
          · have := hs p hmem
            omega

/-- Every recorded backoff sleep follows a failed attempt that was not the
last one the budget allows, and its duration is
`BACKOFF_BASE * 2^(attempt-1) + jitter attempt`. -/
lemma pingAux_sleeps_mem (retries : ℕ) (url : String) (att : ℕ → AttemptRes)
    (jitter : ℕ → ℚ) :
    ∀ fuel i, ∀ p ∈ (pingAux retries url att jitter i fuel).sleeps,
      (att p.1).ok = false ∧ i ≤ p.1 ∧ p.1 + 2 ≤ i + fuel ∧
        p.2 = BACKOFF_BASE * 2 ^ (p.1 - 1) + jitter p.1 := by
  intro fuel
  induction fuel with
  | zero => intro i p hp; simp [pingAux] at hp
  | succ f ih =>
    intro i p hp
    by_cases hok : (att i).ok = true
    · simp [pingAux, hok] at hp
    · cases f with
      | zero => simp [pingAux, hok] at hp
      | succ f' =>
        simp [pingAux, hok] at hp
        rcases hp with rfl | hp
        · exact ⟨by simpa using hok, le_refl i, by omega, rfl⟩
        · obtain ⟨h1, h2, h3, h4⟩ := ih (i + 1) p hp
          exact ⟨h1, by omega, by omega, h4⟩

/-- C1: retry contract of `ping_backend`: with a positive retry budget exactly
one outcome is returned and `1 ≤ attempts ≤ retries`; if attempt `k` is the
first to succeed, the outcome records `attempts = k` with that attempt's
status and latency and no attempt or backoff sleep happens after `k`; if every
attempt fails, `attempts = retries` and the outcome carries the final
attempt's status, latency and error. -/
theorem C1_ping_backend_retry_contract (retries : ℕ) (url : String) (net : Net)
    (jitter : ℕ → ℚ) (hr : 1 ≤ retries) :
    (∃ o, (ping_backend retries url net jitter).outcome = some o ∧
      1 ≤ o.attempts ∧ o.attempts ≤ retries) ∧
    (∀ k, 1 ≤ k → k ≤ retries → (attemptResult net k).ok = true →
      (∀ j, 1 ≤ j → j < k → (attemptResult net j).ok = false) →
      (ping_backend retries url net jitter).outcome =
        some ⟨url, true, (attemptResult net k).status, (attemptResult net k).latency,
          k, ""⟩ ∧
      (∀ t ∈ (ping_backend retries url net jitter).tried, t ≤ k) ∧
      (∀ p ∈ (ping_backend retries url net jitter).sleeps, p.1 < k)) ∧
    ((∀ j, 1 ≤ j → j ≤ retries → (attemptResult net j).ok = false) →
      (ping_backend retries url net jitter).outcome =
        some ⟨url, false, (attemptResult net retries).status,
          (attemptResult net retries).latency, retries,
          (attemptResult net retries).error⟩) := by
  refine ⟨?_, ?_, ?_⟩
  · obtain ⟨o, ho, hP⟩ :=
      pingAux_outcome_total retries url (attemptResult net) jitter retries 1 hr
    refine ⟨o, ho, ?_⟩
    rcases hP with ⟨h1, h2, _⟩ | ⟨h1, _⟩
    · exact ⟨h1, by omega⟩
    · exact ⟨by omega, by omega⟩
  · intro k hk1 hk2 hk hbefore
    obtain ⟨ho, ht, hs⟩ :=
      pingAux_success retries url (attemptResult net) jitter retries 1 k hk1
        (by omega) hk (fun j hj hj2 => hbefore j hj hj2)
    exact ⟨ho, fun t hmem => (ht t hmem).2, fun p hmem => (hs p hmem).2⟩
  · intro hfail
    have h := pingAux_all_fail retries url (attemptResult net) jitter retries 1 hr
      (fun j hj hj2 => hfail j hj (by omega))
    have hidx : 1 + retries - 1 = retries := by omega
    rw [hidx] at h
    exact h

/-- C1 witness: with every attempt failing by a transport error, three
attempts run and the final attempt's data is returned. -/
theorem C1_ping_backend_retry_contract_witness :
    (ping_backend 3 "u" (fun _ => (.exn "e" 1, .resp 200 1)) (fun _ => 0)).outcome =
      some ⟨"u", false, -1, 1, 3, "e"⟩ := by
  have h := (C1_ping_backend_retry_contract 3 "u"
      (fun _ => (.exn "e" 1, .resp 200 1)) (fun _ => 0) (by norm_num)).2.2
    (fun j _ _ => rfl)
  simpa [attemptResult, _attempt] using h

/-- C4: every backoff sleep of `ping_backend` follows a failed attempt that is
not the final one, and — for jitter drawn from `[0, 0.25)` — its duration lies
in `[BACKOFF_BASE * 2^(i-1), BACKOFF_BASE * 2^(i-1) + 0.25)`. -/
theorem C4_ping_backend_backoff (retries : ℕ) (url : String) (net : Net)
    (jitter : ℕ → ℚ) (hj : ∀ k, 0 ≤ jitter k ∧ jitter k < 0.25) :
    ∀ p ∈ (ping_backend retries url net jitter).sleeps,
      (attemptResult net p.1).ok = false ∧ 1 ≤ p.1 ∧ p.1 < retries ∧
      BACKOFF_BASE * 2 ^ (p.1 - 1) ≤ p.2 ∧
      p.2 < BACKOFF_BASE * 2 ^ (p.1 - 1) + 0.25 := by
  intro p hp
  obtain ⟨h1, h2, h3, h4⟩ :=
    pingAux_sleeps_mem retries url (attemptResult net) jitter retries 1 p hp
  obtain ⟨hj0, hj1⟩ := hj p.1
  refine ⟨h1, h2, by omega, ?_, ?_⟩
  · rw [h4]; linarith
  · rw [h4]; linarith

/-- C4 witness: with always-failing attempts and jitter `0.1`, the sleep after
attempt 1 is `0.7`, inside `[0.6, 0.85)`. -/
theorem C4_ping_backend_backoff_witness :
    (attemptResult (fun _ => (HttpStep.exn "e" 1, HttpStep.resp 200 1)) 1).ok = false ∧
    1 ≤ (1 : ℕ) ∧ (1 : ℕ) < 3 ∧
    BACKOFF_BASE * 2 ^ (1 - 1) ≤ (0.7 : ℚ) ∧
    (0.7 : ℚ) < BACKOFF_BASE * 2 ^ (1 - 1) + 0.25 :=
  C4_ping_backend_backoff 3 "u" (fun _ => (.exn "e" 1, .resp 200 1)) (fun _ => 0.1)
    (fun k => ⟨by norm_num, by norm_num⟩) ((1 : ℕ), (0.7 : ℚ))
    (by norm_num [ping_backend, pingAux, attemptResult, _attempt, BACKOFF_BASE])

/-- C10: implicit precondition `RETRIES ≥ 1`: with any positive retry budget
`ping_backend` is total and returns a well-formed outcome, while with a zero
budget the loop body never runs and the post-loop return has no outcome (the
locals it reads are unbound). -/
theorem C10_ping_backend_retries_precondition (url : String) (net : Net)
    (jitter : ℕ → ℚ) :
    (∀ retries, 1 ≤ retries →
      ∃ o, (ping_backend retries url net jitter).outcome = some o ∧
        1 ≤ o.attempts ∧ o.attempts ≤ retries) ∧
    (ping_backend 0 url net jitter).outcome = none := by
  refine ⟨fun retries hr => ?_, rfl⟩
  obtain ⟨o, ho, hP⟩ :=
    pingAux_outcome_total retries url (attemptResult net) jitter retries 1 hr
  refine ⟨o, ho, ?_⟩
  rcases hP with ⟨h1, h2, _⟩ | ⟨h1, _⟩
  · exact ⟨h1, by omega⟩
  · exact ⟨by omega, by omega⟩

/-- C10 witness: 3 retries always yield an outcome; 0 retries yield none. -/
theorem C10_ping_backend_retries_precondition_witness :
    (ping_backend 3 "u" (fun _ => (.resp 200 1, .resp 200 1))
        (fun _ => 0)).outcome.isSome = true ∧
    (ping_backend 0 "u" (fun _ => (.resp 200 1, .resp 200 1))
        (fun _ => 0)).outcome = none := by
  have h := C10_ping_backend_retries_precondition "u"
    (fun _ => (.resp 200 1, .resp 200 1)) (fun _ => 0)
  obtain ⟨o, ho, -⟩ := h.1 3 (by norm_num)
  exact ⟨by rw [ho]; rfl, h.2⟩

/-- Filtering with `p` first does not change a filter with `q` when, on the
list at hand, `q` implies `p`. -/
lemma filter_filter_of_imp (l : List (String × String)) (p q : String × String → Bool)
    (h : ∀ a ∈ l, q a = true → p a = true) :
    (l.filter p).filter q = l.filter q := by
  induction l with
  | nil => rfl
  | cons a rest ih =>
    have ih' := ih fun x hx hqx => h x (List.mem_cons_of_mem a hx) hqx
    cases hq : q a with
    | true =>
      have hp : p a = true := h a (List.mem_cons_self a rest) hq
      simp [List.filter_cons, hp, hq, ih']
    | false =>
      cases hp : p a with
      | true => simp [List.filter_cons, hp, hq, ih']
      | false => simp [List.filter_cons, hp, hq, ih']

/-- Setting a key that is absent appends the new pair. -/
lemma dictSet_absent (l : List (String × String)) (k v : String)
    (h : ∀ p ∈ l, p.1 ≠ k) : dictSet l k v = l ++ [(k, v)] := by
  have hc : (l.any fun p => p.1 = k) = false := by
    simp only [List.any_eq_false]
    intro x hx
    simpa using h x hx
  simp [dictSet, hc]

/-- Looking up an overwritten key finds the new value. -/
lemma dictSet_present_lookup (l : List (String × String)) (k v : String)
    (h : (l.any fun p => p.1 = k) = true) :
    (l.map fun p => if p.1 = k then (k, v) else p).lookup k = some v := by
  induction l with
  | nil => simp at h
  | cons q rest ih =>
    obtain ⟨qk, qv⟩ := q
    by_cases hq : qk = k
    · simp [hq]
    · have hrest : (rest.any fun p => p.1 = k) = true := by
        simp only [List.any_cons] at h
        rcases Bool.or_eq_true_iff.mp h with h' | h'
        · exact absurd (by simpa using h') hq
        · exact h'
      have hbeq : (k == qk) = false := beq_eq_false_iff_ne.mpr (Ne.symm hq)
      simp only [List.map_cons, if_neg (by simpa using hq), List.lookup_cons, hbeq]
      exact ih hrest

/-- Looking up the key of the pair appended after entries all keyed
differently finds the appended value. -/
lemma lookup_append_absent (l : List (String × String)) (k v : String)
    (h : ∀ p ∈ l, p.1 ≠ k) : (l ++ [(k, v)]).lookup k = some v := by
  induction l with
  | nil => simp
  | cons q rest ih =>
    obtain ⟨qk, qv⟩ := q
    have hq : qk ≠ k := by simpa using h (qk, qv) (List.mem_cons_self _ _)
    have hbeq : (k == qk) = false := beq_eq_false_iff_ne.mpr (Ne.symm hq)
    simp only [List.cons_append, List.lookup_cons, hbeq]
    exact ih fun p hp => h p (List.mem_cons_of_mem _ hp)

/-- `dictSet` makes the key map to the new value. -/
lemma dictSet_lookup (l : List (String × String)) (k v : String) :
    (dictSet l k v).lookup k = some v := by
  by_cases h : (l.any fun p => p.1 = k) = true
  · simp only [dictSet, h, if_true]
    exact dictSet_present_lookup l k v h
  · have h' : ∀ p ∈ l, p.1 ≠ k := by
      rw [Bool.not_eq_true, List.any_eq_false] at h
      intro p hp
      simpa using h p hp
    rw [dictSet_absent l k v h']
    exact lookup_append_absent l k v h'

/-- Overwriting the entries keyed `k` changes nothing outside key `k`. -/
lemma filter_ne_map_overwrite (l : List (String × String)) (k v : String) :
    ((l.map fun p => if p.1 = k then (k, v) else p).filter fun p => p.1 ≠ k) =
      l.filter fun p => p.1 ≠ k := by
  induction l with
  | nil => rfl
  | cons q rest ih =>
    by_cases hq : q.1 = k
    · simpa [List.filter_cons, hq] using ih
    · simpa [List.filter_cons, hq] using ih

/-- `dictSet` changes nothing outside the written key. -/
lemma dictSet_filter_ne (l : List (String × String)) (k v : String) :
    ((dictSet l k v).filter fun p => p.1 ≠ k) = l.filter fun p => p.1 ≠ k := by
  by_cases h : (l.any fun p => p.1 = k) = true
  · simp only [dictSet, h, if_true]
    exact filter_ne_map_overwrite l k v
  · have h' : ∀ p ∈ l, p.1 ≠ k := by
      rw [Bool.not_eq_true, List.any_eq_false] at h
      intro p hp
      simpa using h p hp
    rw [dictSet_absent l k v h']
    simp [List.filter_append]

/-- An entry of `dictSet l k v` keyed differently from `k` is an entry
of `l`. -/
lemma dictSet_mem_ne (l : List (String × String)) (k v : String) :
    ∀ q ∈ dictSet l k v, q.1 ≠ k → q ∈ l := by
  intro q hq hne
  unfold dictSet at hq
  by_cases h : (l.any fun p => p.1 = k) = true
  · simp only [h, if_true] at hq
    obtain ⟨p, hp, hfp⟩ := List.mem_map.mp hq
    by_cases hpk : p.1 = k
    · rw [if_pos hpk] at hfp
      exact absurd (by rw [← hfp]) hne
    · rw [if_neg hpk] at hfp
      rwa [← hfp]
  · simp only [h, if_false] at hq
    rcases List.mem_append.mp hq with hq | hq
    · exact hq
    · simp only [List.mem_singleton] at hq
      exact absurd (by rw [hq]) hne

/-- `dictSet` preserves keys having no duplicates. -/
lemma dictSet_keys_nodup (l : List (String × String)) (k v : String)
    (h : (l.map Prod.fst).Nodup) : ((dictSet l k v).map Prod.fst).Nodup := by
  by_cases hc : (l.any fun p => p.1 = k) = true
  · simp only [dictSet, hc, if_true]
    have hkeys : ((l.map fun p => if p.1 = k then (k, v) else p).map Prod.fst) =
        l.map Prod.fst := by
      rw [List.map_map]
      apply List.map_congr_left
      intro a _
      by_cases ha : a.1 = k
      · simp [ha]
      · simp [ha]
    rw [hkeys]
    exact h
  · have h' : ∀ p ∈ l, p.1 ≠ k := by
      rw [Bool.not_eq_true, List.any_eq_false] at hc
      intro p hp
      simpa using hc p hp
    rw [dictSet_absent l k v h']
    rw [List.map_append]
    refine List.Nodup.append h (by simp) ?_
    intro a ha hb
    simp only [List.map_cons, List.map_nil, List.mem_singleton] at hb
    obtain ⟨p, hp, hpa⟩ := List.mem_map.mp ha
    exact h' p hp (by rw [hpa, hb])

/-- Folding `dictSet` over pairs with fresh, pairwise-distinct keys appends
them in order. -/
lemma dictOf_go (l : List (String × String)) :
    ∀ acc, (∀ p ∈ l, ∀ q ∈ acc, q.1 ≠ p.1) → (l.map Prod.fst).Nodup →
      l.foldl (fun acc p => dictSet acc p.1 p.2) acc = acc ++ l := by
  induction l with
  | nil =>
    intro acc _ _
    simp
  | cons p rest ih =>
    intro acc hdisj hnod
    have habs : dictSet acc p.1 p.2 = acc ++ [(p.1, p.2)] :=
      dictSet_absent acc p.1 p.2 fun q hq =>
        hdisj p (List.mem_cons_self p rest) q hq
    simp only [List.map_cons, List.nodup_cons] at hnod
    have hdisj' : ∀ p' ∈ rest, ∀ q ∈ acc ++ [(p.1, p.2)], q.1 ≠ p'.1 := by
      intro p' hp' q hq
      rcases List.mem_append.mp hq with hq | hq
      · exact hdisj p' (List.mem_cons_of_mem p hp') q hq
      · simp only [List.mem_singleton] at hq
        intro hcontra
        rw [hq] at hcontra
        exact hnod.1 (hcontra ▸ List.mem_map_of_mem Prod.fst hp')
    have hrec := ih (acc ++ [(p.1, p.2)]) hdisj' hnod.2
    simp only [List.foldl_cons]
    rw [habs, hrec]
    simp

/-- Building a dict from pairs with pairwise-distinct keys keeps them as
they are. -/
lemma dictOf_eq_self (l : List (String × String)) (h : (l.map Prod.fst).Nodup) :
    dictOf l = l := by
  have := dictOf_go l [] (by simp) h
  simpa [dictOf] using this

/-- Dropping blank values does nothing when no value is blank. -/
lemma parse_qsl_eq_self (l : List (String × String)) (h : ∀ p ∈ l, p.2 ≠ "") :
    parse_qsl l = l := by
  unfold parse_qsl
  rw [List.filter_eq_self]
  intro a ha
  simpa using h a ha

/-- C5 counterexample: the claim promises every other existing query
parameter is preserved for every input URL, but `parse_qsl`'s default drops
a blank-valued parameter — for `?a=` the parameter `a` exists before
cache-busting and is gone afterwards — and `dict(...)` collapses a repeated
key — for `?a=1&a=2` the first parameter's value `1` is replaced by `2`. -/
theorem C5_with_cache_bust_counterexample :
    ((URL.mk "https" "h" "/p" "" [("a", "")] "").query.lookup "a" = some "" ∧
      (_with_cache_bust (URL.mk "https" "h" "/p" "" [("a", "")] "") 100).query.lookup
        "a" = none) ∧
    ((URL.mk "https" "h" "/p" "" [("a", "1"), ("a", "2")] "").query.lookup "a" =
        some "1" ∧
      (_with_cache_bust (URL.mk "https" "h" "/p" "" [("a", "1"), ("a", "2")] "")
        100).query.lookup "a" = some "2") := by
  exact ⟨⟨rfl, rfl⟩, ⟨rfl, rfl⟩⟩

/-- C5 (amended): for a URL whose query parameters have pairwise-distinct
keys and non-blank values, `_with_cache_bust` maps `_kick` to the current
timestamp, preserves scheme, host, path (and params, fragment) and every
other query parameter in order, and applying it twice differs from applying
it once only in the `_kick` value. -/
theorem C5_with_cache_bust_amended (u : URL) (now1 now2 : ℕ)
    (hnodup : (u.query.map Prod.fst).Nodup)
    (hblank : ∀ p ∈ u.query, p.2 ≠ "") :
    ((_with_cache_bust u now1).scheme = u.scheme ∧
      (_with_cache_bust u now1).netloc = u.netloc ∧
      (_with_cache_bust u now1).path = u.path ∧
      (_with_cache_bust u now1).params = u.params ∧
      (_with_cache_bust u now1).fragment = u.fragment) ∧
    (_with_cache_bust u now1).query.lookup "_kick" = some (toString now1) ∧
    ((_with_cache_bust u now1).query.filter fun p => p.1 ≠ "_kick") =
      (u.query.filter fun p => p.1 ≠ "_kick") ∧
    ((_with_cache_bust (_with_cache_bust u now1) now2).query.filter
        fun p => p.1 ≠ "_kick") =
      ((_with_cache_bust u now1).query.filter fun p => p.1 ≠ "_kick") ∧
    (_with_cache_bust (_with_cache_bust u now1) now2).query.lookup "_kick" =
      some (toString now2) := by
  have hq1 : (_with_cache_bust u now1).query =
      dictSet u.query "_kick" (toString now1) := by
    simp only [_with_cache_bust]
    rw [parse_qsl_eq_self u.query hblank, dictOf_eq_self u.query hnodup]
  have hq1nodup : ((_with_cache_bust u now1).query.map Prod.fst).Nodup := by
    rw [hq1]
    exact dictSet_keys_nodup u.query _ _ hnodup
  have hq1mem : ∀ p ∈ (_with_cache_bust u now1).query, p.1 ≠ "_kick" → p.2 ≠ "" := by
    rw [hq1]
    intro p hp hpk
    exact hblank p (dictSet_mem_ne u.query _ _ p hp hpk)
  have hfiltered_nodup :
      (((_with_cache_bust u now1).query.filter fun p => p.2 ≠ "").map Prod.fst).Nodup :=
    ((List.filter_sublist _).map Prod.fst).nodup hq1nodup
  have hstep : parse_qsl (_with_cache_bust u now1).query =
      (_with_cache_bust u now1).query.filter fun p => p.2 ≠ "" := rfl
  have hq2 : (_with_cache_bust (_with_cache_bust u now1) now2).query =
      dictSet ((_with_cache_bust u now1).query.filter fun p => p.2 ≠ "")
        "_kick" (toString now2) := by
    show dictSet (dictOf (parse_qsl (_with_cache_bust u now1).query)) "_kick"
        (toString now2) = _
    rw [hstep, dictOf_eq_self _ hfiltered_nodup]
  refine ⟨⟨rfl, rfl, rfl, rfl, rfl⟩, ?_, ?_, ?_, ?_⟩
  · rw [hq1]
    exact dictSet_lookup _ _ _
  · rw [hq1]
    exact dictSet_filter_ne _ _ _
  · rw [hq2, dictSet_filter_ne]
    exact filter_filter_of_imp _ _ _ fun a ha hq => by
      have h1 : a.1 ≠ "_kick" := by simpa using hq
      simpa using hq1mem a ha h1
  · rw [hq2]
    exact dictSet_lookup _ _ _

/-- C5 witness for the amended claim: `?a=1` gains `_kick=100` and keeps
`a=1`. -/
theorem C5_with_cache_bust_amended_witness :
    (_with_cache_bust (URL.mk "https" "h" "/p" "" [("a", "1")] "") 100).query.lookup
        "_kick" = some (toString 100) ∧
    ((_with_cache_bust (URL.mk "https" "h" "/p" "" [("a", "1")] "") 100).query.filter
        fun p => p.1 ≠ "_kick") =
      ((URL.mk "https" "h" "/p" "" [("a", "1")] "").query.filter
        fun p => p.1 ≠ "_kick") := by
  have h := C5_with_cache_bust_amended (URL.mk "https" "h" "/p" "" [("a", "1")] "")
    100 200 (by simp) (by simp)
  exact ⟨h.2.1, h.2.2.1⟩

/-- The single pass of Python's `min(..., key=f)` yields an element of the
candidates (current best or remaining list) that is `f`-minimal among them. -/
lemma pyMinGo_min (f : TargetOutcome → ℚ) :
    ∀ l b, (pyMinGo f b l = b ∨ pyMinGo f b l ∈ l) ∧
      f (pyMinGo f b l) ≤ f b ∧ ∀ x ∈ l, f (pyMinGo f b l) ≤ f x := by
  intro l
  induction l with
  | nil => exact fun b => ⟨Or.inl rfl, le_refl _, by simp⟩
  | cons r rest ih =>
    intro b
    by_cases h : f r < f b
    · have hrw : pyMinGo f b (r :: rest) = pyMinGo f r rest := by
        simp [pyMinGo, h]
      obtain ⟨hmem, hle, hall⟩ := ih r
      rw [hrw]
      refine ⟨?_, by linarith, ?_⟩
      · rcases hmem with h' | h'
        · exact Or.inr (by rw [h']; exact List.mem_cons_self r rest)
        · exact Or.inr (List.mem_cons_of_mem r h')
      · intro x hx
        rcases List.mem_cons.mp hx with rfl | hx
        · exact hle
        · exact hall x hx
    · have hrw : pyMinGo f b (r :: rest) = pyMinGo f b rest := by
        simp [pyMinGo, h]
      obtain ⟨hmem, hle, hall⟩ := ih b
      rw [hrw]
      refine ⟨?_, hle, ?_⟩
      · rcases hmem with h' | h'
        · exact Or.inl h'
        · exact Or.inr (List.mem_cons_of_mem r h')
      · intro x hx
        rcases List.mem_cons.mp hx with rfl | hx
        · have : f b ≤ f x := le_of_not_lt h
          linarith
        · exact hall x hx

/-- The element Python's `min(..., key=f)` picks is the first one attaining
the minimum: `find?` with the pass's threshold returns exactly it. -/
lemma pyMinGo_first (f : TargetOutcome → ℚ) :
    ∀ l b, (b :: l).find? (fun x => f x ≤ f (pyMinGo f b l)) = some (pyMinGo f b l) := by
  intro l
  induction l with
  | nil =>
    intro b
    rw [show pyMinGo f b [] = b from rfl]
    exact List.find?_cons_of_pos _ (by simp)
  | cons r rest ih =>
    intro b
    by_cases h : f r < f b
    · have hrw : pyMinGo f b (r :: rest) = pyMinGo f r rest := by
        simp [pyMinGo, h]
      have hm : f (pyMinGo f r rest) ≤ f r := (pyMinGo_min f rest r).2.1
      rw [hrw, List.find?_cons_of_neg _ (by simp; linarith)]
      exact ih r
    · have hrw : pyMinGo f b (r :: rest) = pyMinGo f b rest := by
        simp [pyMinGo, h]
      rw [hrw]
      by_cases hb : f b ≤ f (pyMinGo f b rest)
      · have hib := ih b
        rw [List.find?_cons_of_pos _ (by simpa using hb)] at hib
        rw [List.find?_cons_of_pos _ (by simpa using hb)]
        exact hib
      · have hib := ih b
        rw [List.find?_cons_of_neg _ (by simpa using hb)] at hib
        rw [List.find?_cons_of_neg _ (by simpa using hb)]
        have hbr : f b ≤ f r := le_of_not_lt h
        have hr : ¬ f r ≤ f (pyMinGo f b rest) := by
          push_neg at hb ⊢
          linarith
        rw [List.find?_cons_of_neg _ (by simpa using hr)]
        exact hib

/-- The single pass of Python's `max(..., key=f)` yields an element of the
candidates that is `f`-maximal among them. -/
lemma pyMaxGo_max (f : TargetOutcome → ℚ) :
    ∀ l b, (pyMaxGo f b l = b ∨ pyMaxGo f b l ∈ l) ∧
      f b ≤ f (pyMaxGo f b l) ∧ ∀ x ∈ l, f x ≤ f (pyMaxGo f b l) := by
  intro l
  induction l with
  | nil => exact fun b => ⟨Or.inl rfl, le_refl _, by simp⟩
  | cons r rest ih =>
    intro b
    by_cases h : f r > f b
    · have hrw : pyMaxGo f b (r :: rest) = pyMaxGo f r rest := by
        simp [pyMaxGo, h]
      obtain ⟨hmem, hle, hall⟩ := ih r
      rw [hrw]
      refine ⟨?_, by linarith, ?_⟩
      · rcases hmem with h' | h'
        · exact Or.inr (by rw [h']; exact List.mem_cons_self r rest)
        · exact Or.inr (List.mem_cons_of_mem r h')
      · intro x hx
        rcases List.mem_cons.mp hx with rfl | hx
        · exact hle
        · exact hall x hx
    · have hrw : pyMaxGo f b (r :: rest) = pyMaxGo f b rest := by
        simp [pyMaxGo, h]
      obtain ⟨hmem, hle, hall⟩ := ih b
      rw [hrw]
      refine ⟨?_, hle, ?_⟩
      · rcases hmem with h' | h'
        · exact Or.inl h'
        · exact Or.inr (List.mem_cons_of_mem r h')
      · intro x hx
        rcases List.mem_cons.mp hx with rfl | hx
        · have : f x ≤ f b := le_of_not_lt h
          linarith
        · exact hall x hx

/-- The element Python's `max(..., key=f)` picks is the first one attaining
the maximum. -/
lemma pyMaxGo_first (f : TargetOutcome → ℚ) :
    ∀ l b, (b :: l).find? (fun x => f (pyMaxGo f b l) ≤ f x) = some (pyMaxGo f b l) := by
  intro l
  induction l with
  | nil =>
    intro b
    rw [show pyMaxGo f b [] = b from rfl]
    exact List.find?_cons_of_pos _ (by simp)
  | cons r rest ih =>
    intro b
    by_cases h : f r > f b
    · have hrw : pyMaxGo f b (r :: rest) = pyMaxGo f r rest := by
        simp [pyMaxGo, h]
      have hm : f r ≤ f (pyMaxGo f r rest) := (pyMaxGo_max f rest r).2.1
      rw [hrw, List.find?_cons_of_neg _ (by simp; linarith)]
      exact ih r
    · have hrw : pyMaxGo f b (r :: rest) = pyMaxGo f b rest := by
        simp [pyMaxGo, h]
      rw [hrw]
      by_cases hb : f (pyMaxGo f b rest) ≤ f b
      · have hib := ih b
        rw [List.find?_cons_of_pos _ (by simpa using hb)] at hib
        rw [List.find?_cons_of_pos _ (by simpa using hb)]
        exact hib
      · have hib := ih b
        rw [List.find?_cons_of_neg _ (by simpa using hb)] at hib
        rw [List.find?_cons_of_neg _ (by simpa using hb)]
        have hbr : f r ≤ f b := le_of_not_lt h
        have hr : ¬ f (pyMaxGo f b rest) ≤ f r := by
          push_neg at hb ⊢
          linarith
        rw [List.find?_cons_of_neg _ (by simpa using hr)]
        exact hib

/-- C6: empty-input short-circuit of `ping_all`: with no configured targets
the error condition is logged, no probing happens, zero outcomes are
collected and no summary event is emitted. -/
theorem C6_ping_all_empty (net : ℕ → Net) (jitter : ℕ → ℕ → ℚ) :
    ping_all [] net jitter = ([], [Event.errorNoUrls]) := rfl

/-- C7: one outcome per target: for a non-empty target list (duplicates
allowed) `ping_all` collects exactly one outcome per list entry, and entry
`k`'s outcome is the one its own `ping_backend` invocation returned. -/
theorem C7_ping_all_one_outcome_per_target (urls : List String) (net : ℕ → Net)
    (jitter : ℕ → ℕ → ℚ) (hne : urls ≠ []) :
    (ping_all urls net jitter).1.length = urls.length ∧
    ∀ k, k < urls.length →
      (ping_backend RETRIES (urls.getD k "") (net k) (jitter k)).outcome =
        some ((ping_all urls net jitter).1.getD k dfltOutcome) := by
  have hE : urls.isEmpty = false := by simpa using hne
  have hres : (ping_all urls net jitter).1 =
      urls.enum.map fun ku =>
        ((ping_backend RETRIES ku.2 (net ku.1) (jitter ku.1)).outcome).getD dfltOutcome := by
    simp [ping_all, hE]
  constructor
  · rw [hres]
    simp [List.enum, List.enumFrom_length]
  · intro k hk
    have hken : k < urls.enum.length := by
      simpa [List.enum, List.enumFrom_length] using hk
    have hklen : k < (urls.enum.map fun ku =>
        ((ping_backend RETRIES ku.2 (net ku.1) (jitter ku.1)).outcome).getD
          dfltOutcome).length := by
      simpa using hken
    rw [hres, List.getD_eq_getElem _ dfltOutcome hklen, List.getElem_map]
    have henum : urls.enum[k] = (k, urls[k]) := by
      simp [List.enum, List.getElem_enumFrom]
    rw [henum]
    have hgd : urls.getD k "" = urls[k] := List.getD_eq_getElem urls "" hk
    rw [hgd]
    obtain ⟨o, ho, -⟩ := pingAux_outcome_total RETRIES urls[k]
      (attemptResult (net k)) (jitter k) RETRIES 1 (by norm_num [RETRIES])
    rw [show (ping_backend RETRIES urls[k] (net k) (jitter k)).outcome = some o
      from ho]
    rfl

/-- C7 witness: a two-entry list (with the same URL twice) yields two
outcomes, and entry 0's outcome is its own invocation's. -/
theorem C7_ping_all_one_outcome_per_target_witness :
    (ping_all ["u", "u"] (fun _ _ => (.resp 200 1, .resp 200 1))
        (fun _ _ => 0)).1.length = 2 ∧
    (ping_backend RETRIES ((["u", "u"] : List String).getD 0 "")
        ((fun _ _ => ((.resp 200 1 : HttpStep), (.resp 200 1 : HttpStep))) 0)
        ((fun _ _ => (0 : ℚ)) 0)).outcome =
      some ((ping_all ["u", "u"] (fun _ _ => (.resp 200 1, .resp 200 1))
        (fun _ _ => 0)).1.getD 0 dfltOutcome) := by
  have h := C7_ping_all_one_outcome_per_target ["u", "u"]
    (fun _ _ => (.resp 200 1, .resp 200 1)) (fun _ _ => 0) (by simp)
  exact ⟨h.1, h.2 0 (by norm_num)⟩

/-- C9: summary selection: for a non-empty outcome list the reporter's
success and failure counts sum to the total; a fastest and a slowest outcome
are emitted; the fastest is an outcome of minimal latency and the slowest
one of maximal latency; and each is the first outcome in iteration order
attaining that latency. -/
theorem C9_summarize_selection (results : List TargetOutcome) (hne : results ≠ []) :
    results.countP (fun r => r.ok) +
        (results.length - results.countP (fun r => r.ok)) = results.length ∧
    (pyMinBy (fun r => r.latency) results).isSome = true ∧
    (pyMaxBy (fun r => r.latency) results).isSome = true ∧
    (∀ fa, pyMinBy (fun r => r.latency) results = some fa →
      Event.fastestLine fa ∈ summarize results ∧ fa ∈ results ∧
      (∀ x ∈ results, fa.latency ≤ x.latency) ∧
      results.find? (fun x => x.latency ≤ fa.latency) = some fa) ∧
    (∀ sl, pyMaxBy (fun r => r.latency) results = some sl →
      Event.slowestLine sl ∈ summarize results ∧ sl ∈ results ∧
      (∀ x ∈ results, x.latency ≤ sl.latency) ∧
      results.find? (fun x => sl.latency ≤ x.latency) = some sl) := by
  obtain ⟨b, rest, rfl⟩ := List.exists_cons_of_ne_nil hne
  set f : TargetOutcome → ℚ := fun r => r.latency with hf
  have hminEq : pyMinBy f (b :: rest) = some (pyMinGo f b rest) := rfl
  have hmaxEq : pyMaxBy f (b :: rest) = some (pyMaxGo f b rest) := rfl
  have hsumm : Event.fastestLine (pyMinGo f b rest) ∈ summarize (b :: rest) ∧
      Event.slowestLine (pyMaxGo f b rest) ∈ summarize (b :: rest) := by
    constructor <;>
      · simp only [summarize, hminEq, hmaxEq]
        simp
  refine ⟨?_, rfl, rfl, ?_, ?_⟩
  · have := List.countP_le_length (p := fun r => r.ok) (l := b :: rest)
    omega
  · intro fa hfa
    have hfa' : fa = pyMinGo f b rest := by
      rw [hminEq] at hfa
      exact (Option.some.inj hfa).symm
    subst hfa'
    obtain ⟨hmem, hle, hall⟩ := pyMinGo_min f rest b
    refine ⟨hsumm.1, ?_, ?_, pyMinGo_first f rest b⟩
    · rcases hmem with h' | h'
      · exact (by rw [h']; exact List.mem_cons_self b rest)
      · exact List.mem_cons_of_mem b h'
    · intro x hx
      rcases List.mem_cons.mp hx with rfl | hx
      · exact hle
      · exact hall x hx
  · intro sl hsl
    have hsl' : sl = pyMaxGo f b rest := by
      rw [hmaxEq] at hsl
      exact (Option.some.inj hsl).symm
    subst hsl'
    obtain ⟨hmem, hle, hall⟩ := pyMaxGo_max f rest b
    refine ⟨hsumm.2, ?_, ?_, pyMaxGo_first f rest b⟩
    · rcases hmem with h' | h'
      · exact (by rw [h']; exact List.mem_cons_self b rest)
      · exact List.mem_cons_of_mem b h'
    · intro x hx
      rcases List.mem_cons.mp hx with rfl | hx
      · exact hle
      · exact hall x hx

/-- C9 witness: with latencies 1 and 3 the fastest line carries the first
outcome and the slowest line the second. -/
theorem C9_summarize_selection_witness :
    Event.fastestLine ⟨"a", true, 200, 1, 1, ""⟩ ∈
      summarize [⟨"a", true, 200, 1, 1, ""⟩, ⟨"b", false, 500, 3, 3, "err"⟩] ∧
    Event.slowestLine ⟨"b", false, 500, 3, 3, "err"⟩ ∈
      summarize [⟨"a", true, 200, 1, 1, ""⟩, ⟨"b", false, 500, 3, 3, "err"⟩] := by
  have h := C9_summarize_selection
    [⟨"a", true, 200, 1, 1, ""⟩, ⟨"b", false, 500, 3, 3, "err"⟩] (by simp)
  refine ⟨(h.2.2.2.1 ⟨"a", true, 200, 1, 1, ""⟩ ?_).1,
    (h.2.2.2.2 ⟨"b", false, 500, 3, 3, "err"⟩ ?_).1⟩
  · show some (pyMinGo _ _ _) = _
    norm_num [pyMinGo]
  · show some (pyMaxGo _ _ _) = _
    norm_num [pyMaxGo]

end KeepAlive
